import Mathlib

/-!
Shallow embedding of `pet.py` (Personal Expense Tracker).

Python floats are modelled as rationals (`ℚ`).  The backing CSV file is
modelled as its list of data rows (the header row is a fixed constant and the
`csv` module's quoting is lossless on field strings, so a row is just its four
field strings).  I/O failures are outside the model: every operation is given
the file contents it would read.
-/

/-! ## Characters and digit strings -/

/-- Numeric value of a digit character (`'0'` ↦ 0, …, `'9'` ↦ 9). -/
def digitVal (c : Char) : ℕ := c.toNat - 48

/-- Whether a character is an ASCII digit. -/
def isDigitChar (c : Char) : Bool := 48 ≤ c.toNat && c.toNat ≤ 57

/-- The digit character for a value below 10. -/
def digitChar : ℕ → Char
  | 0 => '0'
  | 1 => '1'
  | 2 => '2'
  | 3 => '3'
  | 4 => '4'
  | 5 => '5'
  | 6 => '6'
  | 7 => '7'
  | 8 => '8'
  | 9 => '9'
  | _ => '!'

/-- Value of a big-endian string of digit characters. -/
def digitsVal (ds : List Char) : ℕ :=
  Nat.ofDigits 10 ((ds.map digitVal).reverse)

/-! ## Python `float(...)` on decimal strings

`load_expenses` (pet.py line 55) calls `float(row["amount"])`.  The model
covers the decimal core of Python's grammar: an optional sign, then
`digits`, `digits.digits`, `digits.` or `.digits`.  Scientific notation,
`inf`/`nan` and surrounding whitespace are outside the model; on such
strings the model returns `none` (parse failure). -/

/-- Unsigned decimal literal parser: accepts `digits`, `digits.digits`,
`digits.` and `.digits`; anything else fails. -/
def parseFloatCore (cs : List Char) : Option ℚ :=
  let intPart := cs.takeWhile isDigitChar
  let rest := cs.dropWhile isDigitChar
  if rest = [] then
    if intPart = [] then none else some ((digitsVal intPart : ℚ))
  else if rest.head? = some '.' then
    let rest2 := rest.tail
    let fracPart := rest2.takeWhile isDigitChar
    if rest2.dropWhile isDigitChar = [] ∧ ¬(intPart = [] ∧ fracPart = []) then
      some ((digitsVal intPart : ℚ) + (digitsVal fracPart : ℚ) / (10 : ℚ) ^ fracPart.length)
    else none
  else none

/-- Signed decimal literal parser (model of Python `float(...)`). -/
def parseFloat (cs : List Char) : Option ℚ :=
  if cs.head? = some '-' then (parseFloatCore cs.tail).map (fun q => -q)
  else if cs.head? = some '+' then parseFloatCore cs.tail
  else parseFloatCore cs

/-- `float(row["amount"])` as used by `load_expenses`. -/
def parseAmount (s : String) : Option ℚ := parseFloat s.toList

/-! ## Printing floats back to decimal strings

`save_expense` writes `f"{amount:.2f}"` (pet.py line 39) and
`_overwrite_expenses` writes `str(float)` via the csv writer (line 77).
Both print a decimal string that `float(...)` parses back exactly; the
model renders `n / 10^d` as the digit string of `n` with a point `d`
places from the right. -/

/-- Digit characters of a natural number, big-endian (empty for 0). -/
def natChars (n : ℕ) : List Char :=
  ((Nat.digits 10 n).map digitChar).reverse

/-- Render `n / 10^d` (with `n d : ℕ`) as digits with a decimal point `d`
places from the right, zero-padded so the integer part is nonempty. -/
def renderDec (n d : ℕ) : List Char :=
  let ds := List.replicate (d + 1 - (natChars n).length) '0' ++ natChars n
  ds.take (ds.length - d) ++ '.' :: ds.drop (ds.length - d)

/-- Render `n / 10^d` (with `n : ℤ`) including a leading minus sign. -/
def renderQ (n : ℤ) (d : ℕ) : List Char :=
  if n < 0 then '-' :: renderDec n.natAbs d else renderDec n.natAbs d

/-- Smallest exponent `d ≤ den` with `den ∣ 10^d`, if any. -/
def decExp (den : ℕ) : Option ℕ :=
  (List.range (den + 1)).find? (fun d => 10 ^ d % den == 0)

/-- Model of Python `str(float)`: a decimal string that parses back to the
same value.  Rationals that are not decimal fractions never arise as float
values; for them the model returns `"nan"`. -/
def writeFloat (q : ℚ) : String :=
  match decExp q.den with
  | some d => String.mk (renderQ (q.num * ((10 ^ d / q.den : ℕ) : ℤ)) d)
  | none => "nan"

/-- Round to the nearest integer, ties to even (Python's rounding of
`f"{x:.2f}"`). -/
def roundHalfEven (q : ℚ) : ℤ :=
  let f := ⌊q⌋
  let r := q - f
  if r < 1 / 2 then f
  else if 1 / 2 < r then f + 1
  else if f % 2 = 0 then f else f + 1

/-- Model of `f"{amount:.2f}"` (pet.py line 39). -/
def formatTwoDec (q : ℚ) : String :=
  String.mk (renderQ (roundHalfEven (q * 100)) 2)

/-! ## Data model -/

/-- One data row of the CSV file, as the four field strings the csv module
yields for it. -/
structure RawRow where
  date : String
  amount : String
  category : String
  description : String
deriving DecidableEq

/-- An in-memory expense record as returned by `load_expenses`: the row with
its `amount` parsed to a number. -/
structure Expense where
  date : String
  amount : ℚ
  category : String
  description : String
deriving DecidableEq

/-! ## Storage (`ExpenseStorage`, pet.py lines 15-77) -/

/-- The row-by-row work of `load_expenses` (pet.py lines 54-58): rows whose
`amount` field is empty are skipped (`if row.get("amount")`); a non-empty
`amount` that `float` cannot parse raises, failing the whole comprehension
(`none`). -/
def loadRows : List RawRow → Option (List Expense)
  | [] => some []
  | r :: rs =>
    if r.amount = "" then loadRows rs
    else
      match parseAmount r.amount with
      | none => none
      | some a => (loadRows rs).map (fun es => ⟨r.date, a, r.category, r.description⟩ :: es)

/-- `load_expenses` (pet.py lines 50-63): the comprehension's result, or the
empty list when it raised (the `except` branch returns `[]`). -/
def load_expenses (file : List RawRow) : List Expense :=
  (loadRows file).getD []

/-- How the csv writer serializes one loaded expense back to a row in
`_overwrite_expenses`: the `amount` value is a float, written as
`str(float)`. -/
def expenseToRow (e : Expense) : RawRow :=
  ⟨e.date, writeFloat e.amount, e.category, e.description⟩

/-- `_overwrite_expenses` (pet.py lines 73-77): the data rows written after
the (constant) header. -/
def overwrite_expenses (es : List Expense) : List RawRow :=
  es.map expenseToRow

/-- `delete_expense` (pet.py lines 65-71): load, bounds-check, pop, rewrite.
Returns the success flag and the resulting file contents (unchanged when the
index is out of range, since nothing is written). -/
def delete_expense (file : List RawRow) (index : ℤ) : Bool × List RawRow :=
  let expenses := load_expenses file
  if 0 ≤ index ∧ index < (expenses.length : ℤ) then
    (true, overwrite_expenses (expenses.eraseIdx index.toNat))
  else
    (false, file)

/-- `date = date or datetime.now().strftime("%Y-%m-%d")` (pet.py line 36):
`None` and the empty string both fall back to today's date. -/
def resolveDate (date : Option String) (today : String) : String :=
  match date with
  | none => today
  | some s => if s = "" then today else s

/-- `save_expense` (pet.py lines 28-48): append one row with the amount
formatted to two decimals.  `today` stands for
`datetime.now().strftime("%Y-%m-%d")`; I/O failure (the `except` branch) is
outside the model, so the append always happens. -/
def save_expense (file : List RawRow) (amount : ℚ) (category : String)
    (description : String) (date : Option String) (today : String) : List RawRow :=
  file ++ [⟨resolveDate date today, formatTwoDec amount, category, description⟩]

/-- The arguments of one `save_expense` call (with the `today` its default
date would use). -/
structure SaveOp where
  amount : ℚ
  category : String
  description : String
  date : Option String
  today : String

/-- The row a single `save_expense` call appends. -/
def opToRow (op : SaveOp) : RawRow :=
  ⟨resolveDate op.date op.today, formatTwoDec op.amount, op.category, op.description⟩

/-- The expense that row loads back to. -/
def opToExpense (op : SaveOp) : Expense :=
  ⟨resolveDate op.date op.today, (roundHalfEven (op.amount * 100) : ℚ) / 100,
    op.category, op.description⟩

/-- A store written only through `save_expense`, starting from the freshly
initialized (header-only) file. -/
def saves (ops : List SaveOp) : List RawRow :=
  ops.foldl (fun file op =>
    save_expense file op.amount op.category op.description op.date op.today) []

/-! ## Dates (`datetime.strptime(s, "%Y-%m-%d")`, pet.py lines 92 and 167) -/

/-- A parsed calendar date. -/
structure Date where
  year : ℕ
  month : ℕ
  day : ℕ
deriving DecidableEq

/-- Gregorian leap-year rule (as `datetime` uses). -/
def isLeap (y : ℕ) : Bool := y % 4 == 0 && (y % 100 != 0 || y % 400 == 0)

/-- Days in a month (as `datetime` validates). -/
def daysInMonth (year month : ℕ) : ℕ :=
  match month with
  | 2 => if isLeap year then 29 else 28
  | 4 => 30
  | 6 => 30
  | 9 => 30
  | 11 => 30
  | _ => 31

/-- Model of `datetime.strptime(s, "%Y-%m-%d")`: four year digits, a dash,
one or two month digits (1..12), a dash, one or two day digits valid for
that month and year, nothing after; `datetime` additionally requires
`year ≥ 1`.  Returns `none` where `strptime`/`datetime` raise. -/
def parseDate (s : String) : Option Date :=
  match s.toList with
  | y1 :: y2 :: y3 :: y4 :: sep :: rest =>
    if isDigitChar y1 ∧ isDigitChar y2 ∧ isDigitChar y3 ∧ isDigitChar y4 ∧ sep = '-' then
      let mcs := rest.takeWhile isDigitChar
      let rest2 := rest.dropWhile isDigitChar
      if rest2.head? = some '-' then
        let dcs := rest2.tail.takeWhile isDigitChar
        let year := digitsVal [y1, y2, y3, y4]
        let month := digitsVal mcs
        let day := digitsVal dcs
        if rest2.tail.dropWhile isDigitChar = [] ∧
            1 ≤ mcs.length ∧ mcs.length ≤ 2 ∧ 1 ≤ month ∧ month ≤ 12 ∧
            1 ≤ dcs.length ∧ dcs.length ≤ 2 ∧ 1 ≤ day ∧
            day ≤ daysInMonth year month ∧ 1 ≤ year then
          some ⟨year, month, day⟩
        else none
      else none
    else none
  | _ => none

/-! ## Analyzer (`ExpenseAnalyzer`, pet.py lines 80-120) -/

/-- `filter_by_month` (pet.py lines 83-95).  `strptime` is evaluated for
every element of the comprehension; an unparseable date raises out of the
whole call (`none`). -/
def filter_by_month (expenses : List Expense) (month year : ℤ) : Option (List Expense) :=
  match expenses with
  | [] => some []
  | e :: es =>
    match parseDate e.date with
    | none => none
    | some d =>
      (filter_by_month es month year).map
        (fun r => if (d.month : ℤ) = month ∧ (d.year : ℤ) = year then e :: r else r)

/-- The month/year test of `filter_by_month`, as a predicate on one record
(false where the date does not parse). -/
def dateMatches (month year : ℤ) (e : Expense) : Bool :=
  match parseDate e.date with
  | some d => decide ((d.month : ℤ) = month ∧ (d.year : ℤ) = year)
  | none => false

/-- ASCII lower-casing of one character (model of Python `str.lower`, which
the program only ever meets on ASCII category names). -/
def lowerChar (c : Char) : Char :=
  if 65 ≤ c.toNat ∧ c.toNat ≤ 90 then Char.ofNat (c.toNat + 32) else c

/-- Model of Python `str.lower()`. -/
def lowerStr (s : String) : String :=
  String.mk (s.data.map lowerChar)

/-- `filter_by_category` (pet.py lines 97-100): case-insensitive match via
lower-casing both sides. -/
def filter_by_category (expenses : List Expense) (category : String) : List Expense :=
  let cat := lowerStr category
  expenses.filter (fun e => lowerStr e.category == cat)

/-- One `groups[e["category"]] += e["amount"]` step on an insertion-ordered
association list (Python dicts preserve insertion order). -/
def addToGroups : List (String × ℚ) → String → ℚ → List (String × ℚ)
  | [], cat, amt => [(cat, amt)]
  | (c, a) :: rest, cat, amt =>
    if c = cat then (c, a + amt) :: rest else (c, a) :: addToGroups rest cat amt

/-- `group_by_category` (pet.py lines 102-107). -/
def group_by_category (expenses : List Expense) : List (String × ℚ) :=
  expenses.foldl (fun g e => addToGroups g e.category e.amount) []

/-- The summary dict of `calculate_summary`. -/
structure Summary where
  total : ℚ
  count : ℕ
  average : ℚ
  max : ℚ
  min : ℚ
deriving DecidableEq

/-- Python `max(list)` on a nonempty list (0 on the empty list, unused). -/
def maxList : List ℚ → ℚ
  | [] => 0
  | x :: xs => xs.foldl max x

/-- Python `min(list)` on a nonempty list (0 on the empty list, unused). -/
def minList : List ℚ → ℚ
  | [] => 0
  | x :: xs => xs.foldl min x

/-- `calculate_summary` (pet.py lines 109-120). -/
def calculate_summary (expenses : List Expense) : Summary :=
  if expenses = [] then ⟨0, 0, 0, 0, 0⟩
  else
    let amounts := expenses.map (fun e => e.amount)
    ⟨amounts.sum, amounts.length, amounts.sum / (amounts.length : ℚ),
      maxList amounts, minList amounts⟩

/-- A rational is a decimal fraction: its denominator divides a power of ten.
Every value `parseFloat` returns satisfies this, and `writeFloat` round-trips
on exactly these values. -/
def DecQ (q : ℚ) : Prop := ∃ L : ℕ, (q.den : ℕ) ∣ 10 ^ L

/-! ## Concrete sample data -/

def catFood : String := "Food"

def descSnack : String := "snack"

def strBanana : String := "banana"

def dateJan : String := "2025-01-15"

def dateFeb : String := "2025-02-02"

def rowA : RawRow := ⟨"2025-01-15", "100.00", "Food", "groceries"⟩

def rowB : RawRow := ⟨"2025-01-16", "200.50", "Cafe", "coffee"⟩

def rowC : RawRow := ⟨"2025-02-17", "300.00", "Food", "dinner"⟩

def rowBad : RawRow := ⟨"2025-01-16", "abc", "Cafe", "tea"⟩

def sampleFile : List RawRow := [rowA, rowB, rowC]

def expFood : Expense := ⟨"2025-01-15", 5, "Food", "lunch"⟩

def expFoodLower : Expense := ⟨"2025-01-16", 7, "food", "tea"⟩

def expMarch : Expense := ⟨"2025-03-05", 9, "Cafe", "mocha"⟩

def sampleOp : SaveOp := ⟨5, "Food", "snack", some "2025-01-15", "2025-02-02"⟩

/-! ## Helper lemmas: takeWhile / dropWhile on digit strings -/

theorem takeWhile_append_cons {α} (p : α → Bool) (l : List α) (x : α) (r : List α)
    (hl : ∀ c ∈ l, p c = true) (hx : p x = false) :
    (l ++ x :: r).takeWhile p = l := by
  induction l with
  | nil => simp [List.takeWhile_cons, hx]
  | cons a l ih =>
    have ha : p a = true := hl a (by simp)
    simp only [List.cons_append, List.takeWhile_cons, ha]
    simp [ih (fun c hc => hl c (by simp [hc]))]

theorem dropWhile_append_cons {α} (p : α → Bool) (l : List α) (x : α) (r : List α)
    (hl : ∀ c ∈ l, p c = true) (hx : p x = false) :
    (l ++ x :: r).dropWhile p = x :: r := by
  induction l with
  | nil => simp [List.dropWhile_cons, hx]
  | cons a l ih =>
    have ha : p a = true := hl a (by simp)
    simp only [List.cons_append, List.dropWhile_cons, ha]
    simp [ih (fun c hc => hl c (by simp [hc]))]

theorem takeWhile_all {α} (p : α → Bool) (l : List α) (hl : ∀ c ∈ l, p c = true) :
    l.takeWhile p = l := by
  induction l with
  | nil => rfl
  | cons a l ih =>
    have ha : p a = true := hl a (by simp)
    simp only [List.takeWhile_cons, ha, if_true]
    simp [ih (fun c hc => hl c (by simp [hc]))]

theorem dropWhile_all {α} (p : α → Bool) (l : List α) (hl : ∀ c ∈ l, p c = true) :
    l.dropWhile p = [] := by
  induction l with
  | nil => rfl
  | cons a l ih =>
    have ha : p a = true := hl a (by simp)
    simp only [List.dropWhile_cons, ha, if_true]
    exact ih (fun c hc => hl c (by simp [hc]))

/-! ## Helper lemmas: digit characters and values -/

theorem digitVal_digitChar {d : ℕ} (h : d < 10) : digitVal (digitChar d) = d := by
  interval_cases d <;> rfl

theorem isDigitChar_digitChar {d : ℕ} (h : d < 10) : isDigitChar (digitChar d) = true := by
  interval_cases d <;> rfl

theorem isDigitChar_dot : isDigitChar '.' = false := rfl

theorem isDigitChar_zero : isDigitChar '0' = true := rfl

theorem digitVal_zero_char : digitVal '0' = 0 := rfl

/-! ## Helper lemmas: values of digit strings -/

theorem digitsVal_append (l r : List Char) :
    digitsVal (l ++ r) = digitsVal l * 10 ^ r.length + digitsVal r := by
  unfold digitsVal
  rw [List.map_append, List.reverse_append, Nat.ofDigits_append]
  simp [List.length_reverse, List.length_map, Nat.add_comm, Nat.mul_comm]

theorem ofDigits_replicate_zero (k : ℕ) : Nat.ofDigits 10 (List.replicate k 0) = 0 := by
  induction k with
  | zero => rfl
  | succ n ih => simp [List.replicate_succ, Nat.ofDigits_cons, ih]

theorem digitsVal_replicate_zero (k : ℕ) : digitsVal (List.replicate k '0') = 0 := by
  unfold digitsVal
  rw [List.map_replicate, digitVal_zero_char, List.reverse_replicate, ofDigits_replicate_zero]

theorem digitsVal_natChars (n : ℕ) : digitsVal (natChars n) = n := by
  unfold digitsVal natChars
  rw [List.map_reverse, List.reverse_reverse, List.map_map]
  have : (Nat.digits 10 n).map (digitVal ∘ digitChar) = Nat.digits 10 n := by
    rw [show Nat.digits 10 n = (Nat.digits 10 n).map id from (List.map_id _).symm]
    rw [List.map_map]
    apply List.map_congr_left
    intro d hd
    exact digitVal_digitChar (Nat.digits_lt_base (by norm_num) hd)
  rw [this, Nat.ofDigits_digits]

theorem mem_natChars_isDigit (n : ℕ) : ∀ c ∈ natChars n, isDigitChar c = true := by
  intro c hc
  unfold natChars at hc
  rw [List.mem_reverse, List.mem_map] at hc
  obtain ⟨d, hd, rfl⟩ := hc
  exact isDigitChar_digitChar (Nat.digits_lt_base (by norm_num) hd)

/-! ## Round trip: parsing what the printers emit -/

theorem parseFloatCore_digits_dot (l r : List Char)
    (hl : ∀ c ∈ l, isDigitChar c = true) (hr : ∀ c ∈ r, isDigitChar c = true)
    (hne : l ≠ []) :
    parseFloatCore (l ++ '.' :: r) =
      some ((digitsVal l : ℚ) + (digitsVal r : ℚ) / (10 : ℚ) ^ r.length) := by
  have htw := takeWhile_append_cons isDigitChar l '.' r hl isDigitChar_dot
  have hdw := dropWhile_append_cons isDigitChar l '.' r hl isDigitChar_dot
  have htw2 := takeWhile_all isDigitChar r hr
  have hdw2 := dropWhile_all isDigitChar r hr
  simp only [parseFloatCore, htw, hdw, htw2, hdw2, List.head?_cons, List.tail_cons]
  simp [hne]

theorem renderDec_eq (n d : ℕ) :
    ∃ l r : List Char,
      renderDec n d = l ++ '.' :: r ∧
      (∀ c ∈ l, isDigitChar c = true) ∧ (∀ c ∈ r, isDigitChar c = true) ∧
      l ≠ [] ∧ r.length = d ∧ digitsVal l * 10 ^ d + digitsVal r = n := by
  set ds := List.replicate (d + 1 - (natChars n).length) '0' ++ natChars n with hds
  have hall : ∀ c ∈ ds, isDigitChar c = true := by
    intro c hc
    rw [hds, List.mem_append] at hc
    rcases hc with hc | hc
    · rw [List.eq_of_mem_replicate hc]; exact isDigitChar_zero
    · exact mem_natChars_isDigit n c hc
  have hlen : d < ds.length := by
    rw [hds, List.length_append, List.length_replicate]; omega
  refine ⟨ds.take (ds.length - d), ds.drop (ds.length - d), rfl,
    fun c hc => hall c (List.mem_of_mem_take hc),
    fun c hc => hall c (List.mem_of_mem_drop hc), ?_, ?_, ?_⟩
  · have hlt : (ds.take (ds.length - d)).length = ds.length - d := by
      rw [List.length_take]; omega
    intro h
    rw [h] at hlt
    simp at hlt
    omega
  · rw [List.length_drop]; omega
  · have hdl : (ds.drop (ds.length - d)).length = d := by rw [List.length_drop]; omega
    have happ := digitsVal_append (ds.take (ds.length - d)) (ds.drop (ds.length - d))
    rw [List.take_append_drop, hdl] at happ
    have hv : digitsVal ds = n := by
      rw [hds, digitsVal_append, digitsVal_replicate_zero, digitsVal_natChars]
      simp
    omega

theorem parseFloatCore_renderDec (n d : ℕ) :
    parseFloatCore (renderDec n d) = some ((n : ℚ) / 10 ^ d) := by
  obtain ⟨l, r, heq, hl, hr, hne, hrl, hval⟩ := renderDec_eq n d
  rw [heq, parseFloatCore_digits_dot l r hl hr hne, hrl]
  congr 1
  have h10 : ((10 : ℚ) ^ d) ≠ 0 := by positivity
  field_simp
  exact_mod_cast hval

theorem renderDec_head_digit (n d : ℕ) :
    ∃ c cs, renderDec n d = c :: cs ∧ isDigitChar c = true := by
  obtain ⟨l, r, heq, hl, _, hne, _, _⟩ := renderDec_eq n d
  obtain ⟨c, l', rfl⟩ := List.exists_cons_of_ne_nil hne
  exact ⟨c, l' ++ '.' :: r, by rw [heq, List.cons_append], hl c (by simp)⟩

theorem parseFloat_renderQ (n : ℤ) (d : ℕ) :
    parseFloat (renderQ n d) = some ((n : ℚ) / 10 ^ d) := by
  by_cases hn : n < 0
  · have hq : renderQ n d = '-' :: renderDec n.natAbs d := by
      unfold renderQ; rw [if_pos hn]
    have hstep : parseFloat ('-' :: renderDec n.natAbs d) =
        (parseFloatCore (renderDec n.natAbs d)).map (fun q => -q) := rfl
    rw [hq, hstep, parseFloatCore_renderDec]
    simp only [Option.map_some']
    congr 1
    rw [Nat.cast_natAbs, abs_of_neg hn]
    push_cast
    rw [neg_div, neg_neg]
  · have hq : renderQ n d = renderDec n.natAbs d := by
      unfold renderQ; rw [if_neg hn]
    obtain ⟨c, cs, hcons, hdig⟩ := renderDec_head_digit n.natAbs d
    have hcm : c ≠ '-' := by
      intro h; rw [h] at hdig; exact absurd hdig (by decide)
    have hcp : c ≠ '+' := by
      intro h; rw [h] at hdig; exact absurd hdig (by decide)
    rw [hq, hcons]
    simp only [parseFloat, List.head?_cons]
    rw [if_neg (by simp [hcm]), if_neg (by simp [hcp]), ← hcons, parseFloatCore_renderDec]
    congr 2
    rw [Nat.cast_natAbs, abs_of_nonneg (le_of_not_lt hn)]

/-! ## Decimal fractions: what the parser produces, the printer round-trips -/

theorem den_dvd_of_mul_pow_den_one (q : ℚ) (L : ℕ) (h : (q * 10 ^ L).den = 1) :
    q.den ∣ 10 ^ L := by
  set k : ℤ := (q * 10 ^ L).num with hk
  have hqk : (k : ℚ) = q * 10 ^ L := by
    have h2 := Rat.num_div_den (q * 10 ^ L)
    rw [h] at h2
    simpa using h2
  have hden : ((q.den : ℚ)) ≠ 0 := by
    exact_mod_cast q.den_nz
  have h1 : ((q.num : ℚ) / (q.den : ℚ)) * 10 ^ L = (k : ℚ) := by
    rw [Rat.num_div_den]; exact hqk.symm
  have hcross : q.num * 10 ^ L = k * q.den := by
    field_simp at h1
    exact_mod_cast h1
  have hdvdZ : (q.den : ℤ) ∣ q.num * 10 ^ L := ⟨k, by rw [hcross]; ring⟩
  have hdvdN : q.den ∣ q.num.natAbs * 10 ^ L := by
    have h3 := Int.natAbs_dvd_natAbs.mpr hdvdZ
    simpa [Int.natAbs_mul, Int.natAbs_pow] using h3
  exact Nat.Coprime.dvd_of_dvd_mul_left (Nat.Coprime.symm q.reduced) hdvdN

theorem den_add_div_pow (a b L : ℕ) :
    ((a : ℚ) + (b : ℚ) / 10 ^ L).den ∣ 10 ^ L := by
  apply den_dvd_of_mul_pow_den_one
  have h10 : ((10 : ℚ) ^ L) ≠ 0 := by positivity
  have h2 : ((a : ℚ) + (b : ℚ) / 10 ^ L) * 10 ^ L = ((a * 10 ^ L + b : ℕ) : ℚ) := by
    field_simp
  rw [h2, Rat.den_natCast]

theorem parseFloatCore_DecQ (cs : List Char) (q : ℚ) (h : parseFloatCore cs = some q) :
    DecQ q := by
  simp only [parseFloatCore] at h
  by_cases h1 : cs.dropWhile isDigitChar = []
  · rw [if_pos h1] at h
    by_cases h2 : cs.takeWhile isDigitChar = []
    · rw [if_pos h2] at h
      exact absurd h (by simp)
    · rw [if_neg h2] at h
      have h4 := Option.some.inj h
      exact ⟨0, by rw [← h4, Rat.den_natCast]; exact one_dvd _⟩
  · rw [if_neg h1] at h
    by_cases h3 : (cs.dropWhile isDigitChar).head? = some '.'
    · rw [if_pos h3] at h
      by_cases h4 : (cs.dropWhile isDigitChar).tail.dropWhile isDigitChar = [] ∧
          ¬(cs.takeWhile isDigitChar = [] ∧
            (cs.dropWhile isDigitChar).tail.takeWhile isDigitChar = [])
      · rw [if_pos h4] at h
        have h5 := Option.some.inj h
        exact ⟨((cs.dropWhile isDigitChar).tail.takeWhile isDigitChar).length,
          by rw [← h5]; exact den_add_div_pow _ _ _⟩
      · rw [if_neg h4] at h
        exact absurd h (by simp)
    · rw [if_neg h3] at h
      exact absurd h (by simp)

theorem parseFloat_DecQ (cs : List Char) (q : ℚ) (h : parseFloat cs = some q) :
    DecQ q := by
  unfold parseFloat at h
  split_ifs at h
  · obtain ⟨q0, hq0, rfl⟩ := Option.map_eq_some'.mp h
    obtain ⟨L, hL⟩ := parseFloatCore_DecQ _ _ hq0
    exact ⟨L, by rwa [Rat.neg_den]⟩
  · exact parseFloatCore_DecQ _ _ h
  · exact parseFloatCore_DecQ _ _ h

theorem parseAmount_DecQ (s : String) (q : ℚ) (h : parseAmount s = some q) :
    DecQ q :=
  parseFloat_DecQ _ _ h

theorem dvd_ten_pow {m L : ℕ} (h : m ∣ 10 ^ L) : m ∣ 10 ^ m := by
  have h' : m ∣ 2 ^ L * 5 ^ L := by
    rw [show (10 : ℕ) = 2 * 5 from rfl, mul_pow] at h
    exact h
  obtain ⟨d1, d2, hd1, hd2, rfl⟩ := exists_dvd_and_dvd_of_dvd_mul h'
  obtain ⟨a, ha, rfl⟩ := (Nat.dvd_prime_pow Nat.prime_two).mp hd1
  obtain ⟨b, hb, rfl⟩ := (Nat.dvd_prime_pow Nat.prime_five).mp hd2
  have ha2 : a < 2 ^ a := Nat.lt_two_pow a
  have hb2 : b < 5 ^ b :=
    lt_of_lt_of_le (Nat.lt_two_pow b) (Nat.pow_le_pow_left (by norm_num) b)
  have hm1 : a ≤ 2 ^ a * 5 ^ b := by
    have h5 : 0 < 5 ^ b := by positivity
    calc a ≤ 2 ^ a := le_of_lt ha2
      _ ≤ 2 ^ a * 5 ^ b := Nat.le_mul_of_pos_right _ h5
  have hm2 : b ≤ 2 ^ a * 5 ^ b := by
    have h2p : 0 < 2 ^ a := by positivity
    calc b ≤ 5 ^ b := le_of_lt hb2
      _ ≤ 2 ^ a * 5 ^ b := Nat.le_mul_of_pos_left _ h2p
  calc 2 ^ a * 5 ^ b
      ∣ 2 ^ (2 ^ a * 5 ^ b) * 5 ^ (2 ^ a * 5 ^ b) :=
        mul_dvd_mul (pow_dvd_pow 2 hm1) (pow_dvd_pow 5 hm2)
    _ = 10 ^ (2 ^ a * 5 ^ b) := by rw [← mul_pow]; norm_num

theorem decExp_spec (den : ℕ) (L : ℕ) (h : den ∣ 10 ^ L) :
    ∃ d, decExp den = some d ∧ den ∣ 10 ^ d := by
  have hself : den ∣ 10 ^ den := dvd_ten_pow h
  have hsome : ((List.range (den + 1)).find? (fun d => 10 ^ d % den == 0)).isSome := by
    rw [List.find?_isSome]
    exact ⟨den, by simp, by simp [Nat.mod_eq_zero_of_dvd hself]⟩
  obtain ⟨d, hd⟩ := Option.isSome_iff_exists.mp hsome
  refine ⟨d, hd, ?_⟩
  have hp := List.find?_some hd
  simp only [beq_iff_eq] at hp
  exact Nat.dvd_of_mod_eq_zero hp

theorem parseAmount_writeFloat (q : ℚ) (h : DecQ q) :
    parseAmount (writeFloat q) = some q := by
  obtain ⟨L, hL⟩ := h
  obtain ⟨d, hd, hdvd⟩ := decExp_spec q.den L hL
  unfold writeFloat
  rw [hd]
  have hx : parseAmount (String.mk (renderQ (q.num * ((10 ^ d / q.den : ℕ) : ℤ)) d)) =
      parseFloat (renderQ (q.num * ((10 ^ d / q.den : ℕ) : ℤ)) d) := rfl
  rw [hx, parseFloat_renderQ]
  congr 1
  have hc : (10 ^ d / q.den) * q.den = 10 ^ d := Nat.div_mul_cancel hdvd
  have hden : ((q.den : ℚ)) ≠ 0 := by exact_mod_cast q.den_nz
  have h10 : ((10 : ℚ) ^ d) ≠ 0 := by positivity
  have hcQ : ((10 ^ d / q.den : ℕ) : ℚ) * (q.den : ℚ) = (10 : ℚ) ^ d := by
    exact_mod_cast congrArg (fun n : ℕ => (n : ℚ)) hc
  rw [eq_comm, eq_div_iff h10, Int.cast_mul, Int.cast_natCast]
  conv_lhs => rw [← Rat.num_div_den q]
  rw [div_mul_eq_mul_div, div_eq_iff hden, mul_assoc, hcQ]

theorem renderDec_ne_nil (n d : ℕ) : renderDec n d ≠ [] := by
  obtain ⟨l, r, heq, _, _, _, _, _⟩ := renderDec_eq n d
  rw [heq]
  simp

theorem renderQ_ne_nil (n : ℤ) (d : ℕ) : renderQ n d ≠ [] := by
  unfold renderQ
  split_ifs
  · simp
  · exact renderDec_ne_nil _ _

theorem writeFloat_ne_empty (q : ℚ) : writeFloat q ≠ "" := by
  unfold writeFloat
  cases hd : decExp q.den with
  | none =>
    show ("nan" : String) ≠ ""
    decide
  | some d =>
    intro hcontra
    exact renderQ_ne_nil _ d (congrArg String.data hcontra)

/-! ## Loading: structural lemmas -/

theorem loadRows_cons_skip (r : RawRow) (rs : List RawRow) (he : r.amount = "") :
    loadRows (r :: rs) = loadRows rs := by
  simp only [loadRows]
  rw [if_pos he]

theorem loadRows_cons_bad (r : RawRow) (rs : List RawRow)
    (hne : r.amount ≠ "") (hp : parseAmount r.amount = none) :
    loadRows (r :: rs) = none := by
  simp only [loadRows]
  rw [if_neg hne, hp]

theorem loadRows_cons_parse (r : RawRow) (rs : List RawRow) (a : ℚ)
    (hne : r.amount ≠ "") (hp : parseAmount r.amount = some a) :
    loadRows (r :: rs) =
      (loadRows rs).map (fun es => ⟨r.date, a, r.category, r.description⟩ :: es) := by
  simp only [loadRows]
  rw [if_neg hne, hp]

theorem loadRows_DecQ (file : List RawRow) (es : List Expense) (hf : loadRows file = some es) :
    ∀ e ∈ es, DecQ e.amount := by
  induction file generalizing es with
  | nil =>
    simp only [loadRows, Option.some.injEq] at hf
    subst hf
    simp
  | cons r rs ih =>
    by_cases hre : r.amount = ""
    · rw [loadRows_cons_skip _ _ hre] at hf
      exact ih es hf
    · cases hp : parseAmount r.amount with
      | none =>
        rw [loadRows_cons_bad _ _ hre hp] at hf
        exact absurd hf (by simp)
      | some a =>
        rw [loadRows_cons_parse _ _ _ hre hp] at hf
        obtain ⟨es', hes', rfl⟩ := Option.map_eq_some'.mp hf
        intro e he
        rcases List.mem_cons.mp he with rfl | he'
        · exact parseAmount_DecQ _ _ hp
        · exact ih es' hes' e he'

theorem loadRows_overwrite (es : List Expense) (h : ∀ e ∈ es, DecQ e.amount) :
    loadRows (overwrite_expenses es) = some es := by
  induction es with
  | nil => rfl
  | cons e es ih =>
    have hw : parseAmount (writeFloat e.amount) = some e.amount :=
      parseAmount_writeFloat e.amount (h e (by simp))
    have hne : (expenseToRow e).amount ≠ "" := writeFloat_ne_empty e.amount
    show loadRows (expenseToRow e :: overwrite_expenses es) = some (e :: es)
    rw [loadRows_cons_parse (expenseToRow e) _ e.amount hne hw]
    rw [ih (fun e' he' => h e' (List.mem_cons_of_mem _ he'))]
    simp only [Option.map_some']
    obtain ⟨d, a, c, ds⟩ := e
    rfl

theorem loadRows_snoc (l : List RawRow) (r : RawRow) (a : ℚ)
    (hne : r.amount ≠ "") (hp : parseAmount r.amount = some a) :
    loadRows (l ++ [r]) =
      (loadRows l).map (fun es => es ++ [⟨r.date, a, r.category, r.description⟩]) := by
  induction l with
  | nil =>
    simp only [List.nil_append]
    rw [loadRows_cons_parse r [] a hne hp]
    rfl
  | cons x l ih =>
    by_cases hx : x.amount = ""
    · rw [List.cons_append, loadRows_cons_skip _ _ hx, loadRows_cons_skip _ _ hx, ih]
    · cases hpx : parseAmount x.amount with
      | none =>
        rw [List.cons_append, loadRows_cons_bad _ _ hx hpx, loadRows_cons_bad _ _ hx hpx]
        rfl
      | some b =>
        rw [List.cons_append, loadRows_cons_parse _ _ _ hx hpx,
          loadRows_cons_parse _ _ _ hx hpx, ih]
        cases loadRows l <;> simp

theorem loadRows_none_of_bad (file : List RawRow) (r : RawRow) (hr : r ∈ file)
    (hne : r.amount ≠ "") (hbad : parseAmount r.amount = none) :
    loadRows file = none := by
  induction file with
  | nil => cases hr
  | cons x rs ih =>
    rcases List.mem_cons.mp hr with rfl | hmem
    · exact loadRows_cons_bad _ _ hne hbad
    · by_cases hx : x.amount = ""
      · rw [loadRows_cons_skip _ _ hx]
        exact ih hmem
      · cases hpx : parseAmount x.amount with
        | none => exact loadRows_cons_bad _ _ hx hpx
        | some b =>
          rw [loadRows_cons_parse _ _ _ hx hpx, ih hmem]
          rfl

/-! ## Rounding to two decimals -/

theorem abs_roundHalfEven_sub (r : ℚ) : |(roundHalfEven r : ℚ) - r| ≤ 1 / 2 := by
  simp only [roundHalfEven]
  have hf1 : ((⌊r⌋ : ℤ) : ℚ) ≤ r := Int.floor_le r
  have hf2 : r < (⌊r⌋ : ℚ) + 1 := Int.lt_floor_add_one r
  split_ifs with h1 h2 h3 <;> rw [abs_le] <;> constructor <;>
    first
      | linarith
      | (push_cast; linarith)

theorem roundHalfEven_intCast (n : ℤ) : roundHalfEven (n : ℚ) = n := by
  simp only [roundHalfEven, Int.floor_intCast, sub_self]
  norm_num

theorem parseAmount_formatTwoDec (q : ℚ) :
    parseAmount (formatTwoDec q) = some ((roundHalfEven (q * 100) : ℚ) / 100) := by
  unfold formatTwoDec
  have hx : parseAmount (String.mk (renderQ (roundHalfEven (q * 100)) 2)) =
      parseFloat (renderQ (roundHalfEven (q * 100)) 2) := rfl
  rw [hx, parseFloat_renderQ]
  norm_num

theorem formatTwoDec_ne_empty (q : ℚ) : formatTwoDec q ≠ "" := by
  unfold formatTwoDec
  intro h
  exact renderQ_ne_nil _ _ (congrArg String.data h)

theorem abs_roundHalfEven_div_sub (q : ℚ) :
    |(roundHalfEven (q * 100) : ℚ) / 100 - q| ≤ 1 / 100 := by
  have h := abs_roundHalfEven_sub (q * 100)
  rw [abs_le] at h ⊢
  obtain ⟨ha, hb⟩ := h
  constructor <;> linarith

/-! ## Analyzer lemmas -/

theorem filter_by_month_eq (es : List Expense) (m y : ℤ)
    (h : ∀ e ∈ es, (parseDate e.date).isSome) :
    filter_by_month es m y = some (es.filter (dateMatches m y)) := by
  induction es with
  | nil => rfl
  | cons e es ih =>
    obtain ⟨d, hd⟩ := Option.isSome_iff_exists.mp (h e (by simp))
    simp only [filter_by_month]
    rw [hd, ih (fun e' he' => h e' (by simp [he']))]
    simp only [Option.map_some']
    have hdm : dateMatches m y e = decide ((d.month : ℤ) = m ∧ (d.year : ℤ) = y) := by
      unfold dateMatches
      rw [hd]
    rw [List.filter_cons, hdm]
    by_cases hc : (d.month : ℤ) = m ∧ (d.year : ℤ) = y
    · rw [if_pos hc]
      simp [hc]
    · rw [if_neg hc]
      simp [hc]

/-! ## Grouping lemmas -/

theorem sumVals_addToGroups (g : List (String × ℚ)) (c : String) (a : ℚ) :
    ((addToGroups g c a).map Prod.snd).sum = (g.map Prod.snd).sum + a := by
  induction g with
  | nil => simp [addToGroups]
  | cons p g ih =>
    obtain ⟨c', a'⟩ := p
    by_cases hc : c' = c
    · simp only [addToGroups, if_pos hc, List.map_cons, List.sum_cons]
      ring
    · simp only [addToGroups, if_neg hc, List.map_cons, List.sum_cons, ih]
      ring

theorem sum_group_foldl (es : List Expense) (g : List (String × ℚ)) :
    ((es.foldl (fun g e => addToGroups g e.category e.amount) g).map Prod.snd).sum
      = (g.map Prod.snd).sum + (es.map (fun e => e.amount)).sum := by
  induction es generalizing g with
  | nil => simp
  | cons e es ih =>
    simp only [List.foldl_cons, List.map_cons, List.sum_cons]
    rw [ih, sumVals_addToGroups]
    ring

theorem keys_addToGroups_self (g : List (String × ℚ)) (c : String) (a : ℚ) :
    c ∈ (addToGroups g c a).map Prod.fst := by
  induction g with
  | nil => simp [addToGroups]
  | cons p g ih =>
    obtain ⟨c', a'⟩ := p
    by_cases hc : c' = c
    · simp [addToGroups, hc]
    · simp only [addToGroups, if_neg hc, List.map_cons, List.mem_cons]
      exact Or.inr ih

theorem keys_addToGroups_mono (g : List (String × ℚ)) (c c0 : String) (a : ℚ)
    (h : c0 ∈ g.map Prod.fst) : c0 ∈ (addToGroups g c a).map Prod.fst := by
  induction g with
  | nil => cases h
  | cons p g ih =>
    obtain ⟨c', a'⟩ := p
    simp only [List.map_cons, List.mem_cons] at h
    rcases h with rfl | hmem
    · by_cases hc : c0 = c
      · simp [addToGroups, hc]
      · simp [addToGroups, hc]
    · by_cases hc : c' = c
      · simp only [addToGroups, if_pos hc, List.map_cons, List.mem_cons]
        exact Or.inr hmem
      · simp only [addToGroups, if_neg hc, List.map_cons, List.mem_cons]
        exact Or.inr (ih hmem)

theorem keys_foldl_mono (es : List Expense) (g : List (String × ℚ)) (c0 : String)
    (h : c0 ∈ g.map Prod.fst) :
    c0 ∈ ((es.foldl (fun g e => addToGroups g e.category e.amount) g).map Prod.fst) := by
  induction es generalizing g with
  | nil => simpa using h
  | cons e es ih => exact ih _ (keys_addToGroups_mono _ _ _ _ h)

theorem mem_keys_group_aux (es : List Expense) (e : Expense) (he : e ∈ es) :
    ∀ g : List (String × ℚ),
      e.category ∈ ((es.foldl (fun g e => addToGroups g e.category e.amount) g).map Prod.fst) := by
  induction es with
  | nil => cases he
  | cons x es ih =>
    intro g
    rcases List.mem_cons.mp he with rfl | hmem
    · simp only [List.foldl_cons]
      exact keys_foldl_mono es _ _ (keys_addToGroups_self g e.category e.amount)
    · simp only [List.foldl_cons]
      exact ih hmem _

theorem mem_keys_group_by_category (es : List Expense) (e : Expense) (he : e ∈ es) :
    e.category ∈ (group_by_category es).map Prod.fst :=
  mem_keys_group_aux es e he []

/-! ## Stores written only through save_expense -/

theorem saves_eq_map (ops : List SaveOp) : saves ops = ops.map opToRow := by
  unfold saves
  suffices h : ∀ acc : List RawRow,
      ops.foldl (fun file op =>
        save_expense file op.amount op.category op.description op.date op.today) acc =
      acc ++ ops.map opToRow by
    simpa using h []
  induction ops with
  | nil => intro acc; simp
  | cons op ops ih =>
    intro acc
    simp only [List.foldl_cons, List.map_cons]
    rw [ih]
    unfold save_expense opToRow
    simp

theorem loadRows_saves (ops : List SaveOp) :
    loadRows (ops.map opToRow) = some (ops.map opToExpense) := by
  induction ops with
  | nil => rfl
  | cons op ops ih =>
    simp only [List.map_cons]
    rw [loadRows_cons_parse _ _ ((roundHalfEven (op.amount * 100) : ℚ) / 100)
      (formatTwoDec_ne_empty op.amount) (parseAmount_formatTwoDec op.amount), ih]
    rfl

/-! ## Claim C1 -/

/-- Claim C1 counterexample: a stored file holding one well-formed row and one
row whose amount field is `"abc"` (non-empty, unparseable) loads to the empty
sequence — the well-formed record is not returned, so the load is not a
row-skip. -/
theorem C1_counterexample :
    load_expenses [rowA, rowBad] = [] ∧
    load_expenses [rowA] = [⟨"2025-01-15", (100 : ℚ), "Food", "groceries"⟩] := by
  constructor
  · rfl
  · have h : load_expenses [rowA] =
        [⟨"2025-01-15", (100 : ℚ) + (0 : ℚ) / 10 ^ 2, "Food", "groceries"⟩] := rfl
    rw [h]
    norm_num

/-- Claim C1 (amended): a row whose amount field is non-empty but not
parseable as a number makes the whole load fail, returning the empty
sequence (rows with an empty amount field are the ones skipped). -/
theorem C1_amended_load_fails (file : List RawRow) (r : RawRow) (hr : r ∈ file)
    (hne : r.amount ≠ "") (hbad : parseAmount r.amount = none) :
    load_expenses file = [] := by
  unfold load_expenses
  rw [loadRows_none_of_bad file r hr hne hbad]
  rfl

theorem C1_amended_load_fails_witness :
    rowBad ∈ [rowA, rowBad] ∧ rowBad.amount ≠ "" ∧ parseAmount rowBad.amount = none ∧
      load_expenses [rowA, rowBad] = [] :=
  ⟨by decide, by decide, rfl,
    C1_amended_load_fails [rowA, rowBad] rowBad (by decide) (by decide) rfl⟩

/-! ## Claim C2 -/

/-- Claim C2: deleting a valid index `0 ≤ i < count` reports success, and the
stored record set afterwards is exactly the records before the index followed
by the records after it (one shorter, original relative order). -/
theorem C2_delete_valid (file : List RawRow) (i : ℤ) (h0 : 0 ≤ i)
    (h1 : i < ((load_expenses file).length : ℤ)) :
    (delete_expense file i).1 = true ∧
    load_expenses (delete_expense file i).2 =
      (load_expenses file).take i.toNat ++ (load_expenses file).drop (i.toNat + 1) ∧
    (load_expenses (delete_expense file i).2).length + 1 =
      (load_expenses file).length := by
  cases hlr : loadRows file with
  | none =>
    exfalso
    unfold load_expenses at h1
    rw [hlr] at h1
    simp at h1
    omega
  | some es =>
    have hload : load_expenses file = es := by
      unfold load_expenses
      rw [hlr]
      rfl
    rw [hload] at h1 ⊢
    have hlt : i.toNat < es.length := by omega
    have hcond : 0 ≤ i ∧ i < (es.length : ℤ) := ⟨h0, h1⟩
    have hdel : delete_expense file i = (true, overwrite_expenses (es.eraseIdx i.toNat)) := by
      unfold delete_expense
      rw [hload, if_pos hcond]
    have hDecQ : ∀ e ∈ es.eraseIdx i.toNat, DecQ e.amount := fun e he =>
      loadRows_DecQ file es hlr e ((List.eraseIdx_sublist es i.toNat).subset he)
    have hnew : load_expenses (overwrite_expenses (es.eraseIdx i.toNat)) = es.eraseIdx i.toNat := by
      unfold load_expenses
      rw [loadRows_overwrite _ hDecQ]
      rfl
    rw [hdel]
    refine ⟨rfl, ?_, ?_⟩
    · rw [hnew, List.eraseIdx_eq_take_drop_succ]
    · rw [hnew]
      exact List.length_eraseIdx_add_one hlt

theorem C2_delete_valid_witness :
    (0 : ℤ) ≤ 1 ∧ (1 : ℤ) < ((load_expenses sampleFile).length : ℤ) ∧
    ((delete_expense sampleFile 1).1 = true ∧
      load_expenses (delete_expense sampleFile 1).2 =
        (load_expenses sampleFile).take 1 ++ (load_expenses sampleFile).drop 2 ∧
      (load_expenses (delete_expense sampleFile 1).2).length + 1 =
        (load_expenses sampleFile).length) :=
  ⟨by decide, by decide, C2_delete_valid sampleFile 1 (by decide) (by decide)⟩

/-! ## Claim C3 -/

/-- Claim C3: deleting an out-of-range index (negative or at least the record
count) reports failure and leaves the backing file unchanged. -/
theorem C3_delete_invalid (file : List RawRow) (i : ℤ)
    (h : i < 0 ∨ ((load_expenses file).length : ℤ) ≤ i) :
    (delete_expense file i).1 = false ∧ (delete_expense file i).2 = file := by
  have hcond : ¬(0 ≤ i ∧ i < ((load_expenses file).length : ℤ)) := by omega
  unfold delete_expense
  rw [if_neg hcond]
  exact ⟨rfl, rfl⟩

theorem C3_delete_invalid_witness :
    ((-1 : ℤ) < 0 ∨ ((load_expenses sampleFile).length : ℤ) ≤ -1) ∧
    ((delete_expense sampleFile (-1)).1 = false ∧
      (delete_expense sampleFile (-1)).2 = sampleFile) :=
  ⟨Or.inl (by decide), C3_delete_invalid sampleFile (-1) (Or.inl (by decide))⟩

theorem resolveDate_some (s today : String) (h : s ≠ "") :
    resolveDate (some s) today = s := by
  show (if s = "" then today else s) = s
  rw [if_neg h]

/-! ## Claim C4 -/

/-- Claim C4: saving a positive amount with a canonical date onto any store
whose load succeeds, then loading, appends one record whose date, category
and description equal the saved values and whose amount is within 0.01 of
the original. -/
theorem C4_save_load_round_trip (file : List RawRow) (es : List Expense)
    (hfile : loadRows file = some es) (a : ℚ) (cat desc date today : String)
    (_hpos : 0 < a) (hdate : (parseDate date).isSome) :
    ∃ e : Expense,
      load_expenses (save_expense file a cat desc (some date) today) =
        load_expenses file ++ [e] ∧
      e.date = date ∧ e.category = cat ∧ e.description = desc ∧
      |e.amount - a| ≤ 1 / 100 := by
  have hde : date ≠ "" := by
    intro h
    rw [h] at hdate
    exact absurd hdate (by decide)
  have hres : resolveDate (some date) today = date := resolveDate_some date today hde
  refine ⟨⟨date, (roundHalfEven (a * 100) : ℚ) / 100, cat, desc⟩, ?_, rfl, rfl, rfl,
    abs_roundHalfEven_div_sub a⟩
  unfold save_expense
  rw [hres]
  unfold load_expenses
  rw [loadRows_snoc file _ ((roundHalfEven (a * 100) : ℚ) / 100)
    (formatTwoDec_ne_empty a) (parseAmount_formatTwoDec a), hfile]
  rfl

theorem C4_save_load_round_trip_witness :
    loadRows ([] : List RawRow) = some [] ∧ (0 : ℚ) < 5 ∧ (parseDate dateJan).isSome ∧
    (∃ e : Expense,
      load_expenses (save_expense [] 5 catFood descSnack (some dateJan) dateFeb) =
        load_expenses ([] : List RawRow) ++ [e] ∧
      e.date = dateJan ∧ e.category = catFood ∧ e.description = descSnack ∧
      |e.amount - 5| ≤ 1 / 100) :=
  ⟨rfl, by norm_num, rfl,
    C4_save_load_round_trip [] [] rfl 5 catFood descSnack dateJan dateFeb (by norm_num) rfl⟩

/-! ## Claim C5 -/

/-- Claim C5: for a non-empty record list, the category sums of
`group_by_category` add up to the `total` of `calculate_summary`. -/
theorem C5_group_sum_eq_total (es : List Expense) (h : es ≠ []) :
    ((group_by_category es).map Prod.snd).sum = (calculate_summary es).total := by
  unfold group_by_category calculate_summary
  rw [if_neg h, sum_group_foldl]
  simp

theorem C5_group_sum_eq_total_witness :
    [expFood, expFoodLower] ≠ [] ∧
    ((group_by_category [expFood, expFoodLower]).map Prod.snd).sum =
      (calculate_summary [expFood, expFoodLower]).total :=
  ⟨by decide, C5_group_sum_eq_total [expFood, expFoodLower] (by decide)⟩

/-! ## Claim C6 -/

/-- Claim C6: two records whose categories differ only in letter case are both
returned by `filter_by_category` under either spelling, while
`group_by_category` keeps their two original spellings as distinct keys. -/
theorem C6_case_asymmetry (es : List Expense) (r1 r2 : Expense)
    (h1 : r1 ∈ es) (h2 : r2 ∈ es)
    (hlow : lowerStr r1.category = lowerStr r2.category)
    (hne : r1.category ≠ r2.category) :
    (r1 ∈ filter_by_category es r1.category ∧ r2 ∈ filter_by_category es r1.category) ∧
    (r1 ∈ filter_by_category es r2.category ∧ r2 ∈ filter_by_category es r2.category) ∧
    r1.category ∈ (group_by_category es).map Prod.fst ∧
    r2.category ∈ (group_by_category es).map Prod.fst ∧
    r1.category ≠ r2.category :=
  ⟨⟨List.mem_filter.mpr ⟨h1, by simp⟩, List.mem_filter.mpr ⟨h2, by simp [hlow]⟩⟩,
    ⟨List.mem_filter.mpr ⟨h1, by simp [hlow]⟩, List.mem_filter.mpr ⟨h2, by simp⟩⟩,
    mem_keys_group_by_category es r1 h1, mem_keys_group_by_category es r2 h2, hne⟩

theorem C6_case_asymmetry_witness :
    expFood ∈ [expFood, expFoodLower] ∧ expFoodLower ∈ [expFood, expFoodLower] ∧
    lowerStr expFood.category = lowerStr expFoodLower.category ∧
    expFood.category ≠ expFoodLower.category ∧
    ((expFood ∈ filter_by_category [expFood, expFoodLower] expFood.category ∧
      expFoodLower ∈ filter_by_category [expFood, expFoodLower] expFood.category) ∧
    (expFood ∈ filter_by_category [expFood, expFoodLower] expFoodLower.category ∧
      expFoodLower ∈ filter_by_category [expFood, expFoodLower] expFoodLower.category) ∧
    expFood.category ∈ (group_by_category [expFood, expFoodLower]).map Prod.fst ∧
    expFoodLower.category ∈ (group_by_category [expFood, expFoodLower]).map Prod.fst ∧
    expFood.category ≠ expFoodLower.category) :=
  ⟨by decide, by decide, by decide, by decide,
    C6_case_asymmetry [expFood, expFoodLower] expFood expFoodLower
      (by decide) (by decide) (by decide) (by decide)⟩

/-! ## Claim C7 -/

/-- Claim C7: on records whose dates all parse, `filter_by_month` succeeds and
returns exactly the records whose parsed date matches the month and year; the
result is a sublist of the input (subset in original relative order). -/
theorem C7_filter_by_month (es : List Expense) (m y : ℤ)
    (h : ∀ e ∈ es, (parseDate e.date).isSome) :
    filter_by_month es m y = some (es.filter (dateMatches m y)) ∧
    (es.filter (dateMatches m y)).Sublist es :=
  ⟨filter_by_month_eq es m y h, List.filter_sublist _⟩

theorem C7_filter_by_month_witness :
    (∀ e ∈ [expFood, expMarch], (parseDate e.date).isSome) ∧
    (filter_by_month [expFood, expMarch] 1 2025 =
      some ([expFood, expMarch].filter (dateMatches 1 2025)) ∧
    ([expFood, expMarch].filter (dateMatches 1 2025)).Sublist [expFood, expMarch]) :=
  ⟨by decide, C7_filter_by_month [expFood, expMarch] 1 2025 (by decide)⟩

/-! ## Claim C8 -/

/-- Claim C8: the summary of the empty record list is the all-zero summary
(total, count, average, max, min all zero) rather than a failure. -/
theorem C8_summary_empty : calculate_summary [] = ⟨0, 0, 0, 0, 0⟩ := rfl

/-! ## Claim C9 -/

/-- Claim C9 counterexample: `save_expense` accepts the non-canonical date
`"banana"` unchanged, so a store written only through Save can hold a record
whose date does not parse, and `filter_by_month` hits its fatal parse-failure
branch on it. -/
theorem C9_counterexample :
    load_expenses (save_expense [] 5 catFood descSnack (some strBanana) dateJan) =
      [⟨strBanana, 5, catFood, descSnack⟩] ∧
    parseDate strBanana = none ∧
    filter_by_month
      (load_expenses (save_expense [] 5 catFood descSnack (some strBanana) dateJan))
      1 2025 = none := by
  have hr : roundHalfEven ((5 : ℚ) * 100) = 500 := by
    rw [show ((5 : ℚ) * 100) = ((500 : ℤ) : ℚ) by norm_num]
    exact roundHalfEven_intCast 500
  have h5 : parseAmount (formatTwoDec 5) = some 5 := by
    rw [parseAmount_formatTwoDec 5, hr]
    norm_num
  have hsave : save_expense [] 5 catFood descSnack (some strBanana) dateJan =
      [⟨strBanana, formatTwoDec 5, catFood, descSnack⟩] := by
    unfold save_expense
    rw [resolveDate_some strBanana dateJan (by decide)]
    rfl
  have hload : load_expenses [⟨strBanana, formatTwoDec 5, catFood, descSnack⟩] =
      [⟨strBanana, 5, catFood, descSnack⟩] := by
    unfold load_expenses
    rw [loadRows_cons_parse _ _ 5 (formatTwoDec_ne_empty 5) h5]
    rfl
  refine ⟨by rw [hsave]; exact hload, rfl, ?_⟩
  rw [hsave, hload]
  rfl

/-- Claim C9 (amended): for a store written only through Save calls whose
resolved dates (the explicit date, or today's date when omitted or empty) are
canonical, every loaded record's date parses, and `filter_by_month` never hits
its parse-failure branch. -/
theorem C9_amended_canonical (ops : List SaveOp)
    (h : ∀ op ∈ ops, (parseDate (resolveDate op.date op.today)).isSome) (m y : ℤ) :
    (∀ e ∈ load_expenses (saves ops), (parseDate e.date).isSome) ∧
    (filter_by_month (load_expenses (saves ops)) m y).isSome := by
  have hload : load_expenses (saves ops) = ops.map opToExpense := by
    unfold load_expenses
    rw [saves_eq_map, loadRows_saves]
    rfl
  have hdates : ∀ e ∈ load_expenses (saves ops), (parseDate e.date).isSome := by
    rw [hload]
    intro e he
    obtain ⟨op, hop, rfl⟩ := List.mem_map.mp he
    exact h op hop
  refine ⟨hdates, ?_⟩
  rw [filter_by_month_eq _ m y hdates]
  rfl

theorem C9_amended_canonical_witness :
    (∀ op ∈ [sampleOp], (parseDate (resolveDate op.date op.today)).isSome) ∧
    ((∀ e ∈ load_expenses (saves [sampleOp]), (parseDate e.date).isSome) ∧
      (filter_by_month (load_expenses (saves [sampleOp])) 1 2025).isSome) :=
  ⟨by decide, C9_amended_canonical [sampleOp] (by decide) 1 2025⟩

/-! ## Claim C10 -/

/-- Claim C10: `filter_by_category` returns the sublist of the input (members
of the input, original relative order) consisting exactly of the records whose
lower-cased category equals the lower-cased argument. -/
theorem C10_filter_by_category (es : List Expense) (cat : String) :
    (filter_by_category es cat).Sublist es ∧
    ∀ e, e ∈ filter_by_category es cat ↔ e ∈ es ∧ lowerStr e.category = lowerStr cat := by
  constructor
  · exact List.filter_sublist _
  · intro e
    unfold filter_by_category
    rw [List.mem_filter]
    simp
